import Mathlib

set_option maxHeartbeats 1000000

/-!
Shallow embedding of the vector-store subsystem of this repository
(`src/rust-vexus-lite/src/lib.rs`): the `Mapping` tag/label bimap, the
`VexusIndex` wrapper around the opaque usearch engine, and the recovery
procedure described by the specification.

Modelling conventions:
* `u32`/`usize` values are `Nat`; wraparound is written explicitly as
  `% 4294967296` at the places the source performs `u32` arithmetic
  (the `AtomicU32` label counter and the `max_label + 1` restore).
* Raw byte buffers (`napi` `Buffer`) are `List Nat` (one entry per byte).
  The source reinterprets the buffer as `len / 4` 32-bit floats; we model
  each float by its 32-bit word read little-endian (`decodeF32s`).  No
  claim depends on floating-point arithmetic, only on element counts and
  on which slice of the buffer each inserted vector is.
* The usearch engine is the opaque capability of the specification: an
  association of labels to vectors plus a capacity, together with
  behaviour oracles (`reserveFail`, `addFail`, `searchFn`) standing for
  the engine outcomes the wrapper merely observes.
* `HashMap` is modelled as an association list; `insert` replaces any
  existing binding of the key (`alInsert`), `remove` deletes all bindings
  of the key (`alErase`), matching `HashMap` semantics on the states the
  code constructs.
* Locks and `eprintln!` logging are not modelled; every operation is the
  body it executes under the acquired locks.
-/

/-- Bytes of a raw buffer reinterpreted as 32-bit little-endian words, one
per `f32` of the source's `from_raw_parts` cast; a trailing partial chunk
is dropped, mirroring `vectors.len() / size_of::<f32>()`. -/
def decodeF32s : List Nat → List Int
  | a :: b :: c :: d :: rest =>
    Int.ofNat (a + 256 * b + 65536 * c + 16777216 * d) :: decodeF32s rest
  | _ => []

/-- Association-list lookup, first binding wins (models `HashMap::get`). -/
def alookup {α β : Type} [DecidableEq α] : List (α × β) → α → Option β
  | [], _ => none
  | p :: rest, k => if p.1 = k then some p.2 else alookup rest k

/-- Association-list insert replacing any existing binding of the key
(models `HashMap::insert`). -/
def alInsert {α β : Type} [DecidableEq α] (k : α) (v : β) (l : List (α × β)) :
    List (α × β) :=
  (k, v) :: l.filter (fun p => decide (p.1 ≠ k))

/-- Association-list erase of every binding of the key
(models `HashMap::remove`). -/
def alErase {α β : Type} [DecidableEq α] (k : α) (l : List (α × β)) :
    List (α × β) :=
  l.filter (fun p => decide (p.1 ≠ k))

/-- The `u32` modulus. -/
def u32Mod : Nat := 4294967296

/-- The `Mapping` struct of the source: tag text to label number and back,
plus the `AtomicU32` allocation counter. -/
structure Mapping where
  label_to_tag : List (Nat × String)
  tag_to_label : List (String × Nat)
  next_label : Nat

/-- `Mapping::new`. -/
def Mapping.new : Mapping := ⟨[], [], 0⟩

/-- `Mapping::get_or_create_label`: return the existing label for `tag`, or
allocate `next_label` (post-incrementing the counter with `u32` wrap) and
record both directions. -/
def Mapping.get_or_create_label (m : Mapping) (tag : String) : Nat × Mapping :=
  match alookup m.tag_to_label tag with
  | some label => (label, m)
  | none =>
    (m.next_label,
      { label_to_tag := alInsert m.next_label tag m.label_to_tag
        tag_to_label := alInsert tag m.next_label m.tag_to_label
        next_label := (m.next_label + 1) % u32Mod })

/-- `Mapping::get_tag`. -/
def Mapping.get_tag (m : Mapping) (label : Nat) : Option String :=
  alookup m.label_to_tag label

/-- `Mapping::remove`: drop the tag from `tag_to_label`; when it was
present, also drop its label from `label_to_tag` and return the label. -/
def Mapping.remove (m : Mapping) (tag : String) : Option Nat × Mapping :=
  match alookup m.tag_to_label tag with
  | some label =>
    (some label,
      { label_to_tag := alErase label m.label_to_tag
        tag_to_label := alErase tag m.tag_to_label
        next_label := m.next_label })
  | none => (none, m)

/-- Largest key of `label_to_tag`, as `keys().max()` computes it on a
non-empty map. -/
def maxKey (l : List (Nat × String)) : Nat := (l.map Prod.fst).foldl max 0

/-- Serialization round trip of a `Mapping`: `#[serde(skip)]` resets
`next_label` to the default `0`, and `VexusIndex::load` (lines 126-130)
restores it to `max_label + 1` when `label_to_tag` is non-empty. -/
def Mapping.roundtrip (m : Mapping) : Mapping :=
  if m.label_to_tag.isEmpty then { m with next_label := 0 }
  else { m with next_label := (maxKey m.label_to_tag + 1) % u32Mod }

/-- Inverse-bimap property of the specification:
`tag_to_label[t] == l ⇔ label_to_tag[l] == t`. -/
def Mapping.Inverse (m : Mapping) : Prop :=
  ∀ (t : String) (l : Nat),
    alookup m.tag_to_label t = some l ↔ alookup m.label_to_tag l = some t

/-- Every label recorded in either direction is below the allocation
counter. -/
def Mapping.LabelsBounded (m : Mapping) : Prop :=
  (∀ p ∈ m.tag_to_label, p.2 < m.next_label) ∧
  (∀ p ∈ m.label_to_tag, p.1 < m.next_label)

/-- Well-formedness invariant of reachable mappings. -/
def Mapping.WF (m : Mapping) : Prop :=
  m.Inverse ∧ m.LabelsBounded

example : (Mapping.new.get_or_create_label "a").1 = 0 := by decide
example : ((Mapping.new.get_or_create_label "a").2.get_or_create_label "b").1 = 1 := by decide
example :
    (((Mapping.new.get_or_create_label "a").2.get_or_create_label "b").2.remove "b").1
      = some 1 := by decide

/-- Errors of the wrapper, one constructor per `Error::from_reason` site
that the modelled operations can reach, carrying the data the source puts
into the message. -/
inductive Err where
  | sizeMismatch (expected got : Nat)
  | reserveFailed (oldCap newCap : Nat)
  | addFailed (tag : String) (label : Nat)
  | searchFailed
  deriving DecidableEq

/-- One search hit as returned to the caller. -/
structure SearchResult where
  tag : String
  score : Int
  deriving DecidableEq

/-- Opaque usearch engine: stored vectors and capacity, plus behaviour
oracles for the outcomes the wrapper merely observes (`reserveFail c`:
whether `reserve(c)` fails; `addFail l`: whether `add(l, _)` fails;
`searchFn q k`: the `(label, distance)` matches of `search`, or `none`
when the engine search fails). -/
structure Engine where
  vectors : List (Nat × List Int)
  capacity : Nat
  memUsage : Nat
  reserveFail : Nat → Bool
  addFail : Nat → Bool
  searchFn : List Int → Nat → Option (List (Nat × Int))

/-- `Index::size`. -/
def Engine.size (e : Engine) : Nat := e.vectors.length

/-- `Index::remove`: drops the label's vector; the source ignores the
result (`let _ = index.remove(..)`), so failure is not modelled. -/
def Engine.removeLabel (e : Engine) (l : Nat) : Engine :=
  { e with vectors := e.vectors.filter (fun p => decide (p.1 ≠ l)) }

/-- `Index::add`: fails when the engine rejects the label, otherwise
records the vector under the label. -/
def Engine.add (e : Engine) (l : Nat) (v : List Int) : Option Engine :=
  if e.addFail l then none else some { e with vectors := (l, v) :: e.vectors }

/-- `Index::reserve`: fails when the engine rejects the reservation,
otherwise raises the capacity to at least the requested amount. -/
def Engine.reserve (e : Engine) (c : Nat) : Option Engine :=
  if e.reserveFail c then none else some { e with capacity := max e.capacity c }

/-- The `VexusStats` object of `VexusIndex::stats`. -/
structure VexusStats where
  total_vectors : Nat
  dimensions : Nat
  capacity : Nat
  memory_usage : Nat
  deriving DecidableEq

/-- The `VexusIndex` struct: one engine, one mapping, the configured
dimensionality. -/
structure VexusIndex where
  index : Engine
  mapping : Mapping
  dimensions : Nat

/-- Per-pair loop of `VexusIndex::upsert` (lines 246-260): for the `i`-th
tag, get-or-create its label, remove any previous vector of that label
(result ignored), then add the `i`-th slice of the decoded buffer; an add
failure aborts the loop with an error naming the tag and label. -/
def upsertLoop (dim : Nat) (vd : List Int) :
    List String → Nat → Mapping → Engine → Mapping × Engine × Option Err
  | [], _, m, e => (m, e, none)
  | tag :: rest, i, m, e =>
    match m.get_or_create_label tag with
    | (label, m') =>
      let e₁ := e.removeLabel label
      match e₁.add label ((vd.drop (i * dim)).take dim) with
      | none => (m', e₁, some (Err.addFailed tag label))
      | some e₂ => upsertLoop dim vd rest (i + 1) m' e₂

/-- `VexusIndex::upsert`: decode the buffer, check
`vec_data.len() == tags.len() * dim`, auto-expand capacity to
`(required * 1.5) as usize` when `required > capacity` (propagating a
reserve failure), then run the per-pair loop.  The returned store is the
state the in-place Rust mutation leaves behind, error or not. -/
def VexusIndex.upsert (s : VexusIndex) (tags : List String) (vectors : List Nat) :
    VexusIndex × Option Err :=
  let vec_data := decodeF32s vectors
  let vec_dim := s.dimensions
  let num_vectors := tags.length
  if vec_data.length ≠ num_vectors * vec_dim then
    (s, some (Err.sizeMismatch (num_vectors * vec_dim) vec_data.length))
  else
    let current_size := s.index.size
    let current_capacity := s.index.capacity
    let required_capacity := current_size + num_vectors
    let new_capacity := 3 * required_capacity / 2
    let reserved : Option Engine :=
      if required_capacity > current_capacity then s.index.reserve new_capacity
      else some s.index
    match reserved with
    | none => (s, some (Err.reserveFailed current_capacity new_capacity))
    | some e =>
      match upsertLoop vec_dim vec_data tags 0 s.mapping e with
      | (m', e', err) => ({ s with mapping := m', index := e' }, err)

/-- `VexusIndex::search`: decode the query buffer (no dimension check),
delegate to the engine, then keep only matches whose truncated-to-`u32`
label has a tag in the mapping, scoring each as `1 - distance`. -/
def VexusIndex.search (s : VexusIndex) (query : List Nat) (k : Nat) :
    Except Err (List SearchResult) :=
  let query_data := decodeF32s query
  match s.index.searchFn query_data k with
  | none => Except.error Err.searchFailed
  | some ms =>
    Except.ok (ms.filterMap (fun p =>
      (s.mapping.get_tag (p.1 % u32Mod)).map (fun tag => ⟨tag, 1 - p.2⟩)))

/-- `VexusIndex::stats`. -/
def VexusIndex.stats (s : VexusIndex) : VexusStats :=
  { total_vectors := s.index.size % u32Mod
    dimensions := s.dimensions
    capacity := s.index.capacity % u32Mod
    memory_usage := s.index.memUsage % u32Mod }

/-- Labels the upsert loop assigns to a tag list, in order, starting from
a given mapping (derived bookkeeping used to state batch properties). -/
def assignedLabels : Mapping → List String → List Nat
  | _, [] => []
  | m, t :: ts =>
    match m.get_or_create_label t with
    | (l, m') => l :: assignedLabels m' ts

/-- Mapping-level operations a caller can perform, for stating label
lifetime properties; `roundtrip` is a save followed by a load. -/
inductive MapOp where
  | create (tag : String)
  | removeTag (tag : String)
  | roundtrip
  deriving DecidableEq

/-- One step over a mapping together with the list of labels retired by
`remove` so far (ghost bookkeeping, newest first). -/
def mapStep : Mapping × List Nat → MapOp → Mapping × List Nat
  | (m, ret), MapOp.create t => ((m.get_or_create_label t).2, ret)
  | (m, ret), MapOp.removeTag t =>
    match m.remove t with
    | (some l, m') => (m', l :: ret)
    | (none, m') => (m', ret)
  | (m, ret), MapOp.roundtrip => (m.roundtrip, ret)

/-- Run a sequence of mapping operations from the fresh mapping. -/
def runOps (ops : List MapOp) : Mapping × List Nat :=
  ops.foldl mapStep (Mapping.new, [])

/-- Modelled from the spec: one row read from the external relational
store during recovery (the Recovery Procedure of spec section 4.4 is not
part of the Rust sources under `src/`; only this wrapper library is).
A row yields `(row_id, raw_vector_bytes)`. -/
structure RecRow where
  id : Nat
  raw : List Nat

/-- Modelled from the spec: the engine state the recovery procedure
populates, keyed directly by row id (identifier-keyed variant). -/
structure RecEngine where
  vectors : List (Nat × List Int)
  capacity : Nat
  deriving DecidableEq

/-- Modelled from the spec: a single identifier-keyed insert during
recovery, applying the pre-growth policy "if `size + 1 >= capacity`, grow
to `ceil((size + 1) * 1.5)`" before recording the vector. -/
def recInsert (e : RecEngine) (id : Nat) (raw : List Nat) : RecEngine :=
  let required := e.vectors.length + 1
  let cap' :=
    if required ≥ e.capacity then max e.capacity ((3 * required + 1) / 2)
    else e.capacity
  { vectors := (id, decodeF32s raw) :: e.vectors, capacity := cap' }

/-- Modelled from the spec: the per-row loop of the Recovery Procedure.
For each row in presented order: when
`len(raw_vector_bytes) != dimension * sizeof(f32)` the row is skipped and
a skip counter incremented — the run is not aborted; otherwise the bytes
are reinterpreted as floats and inserted under the row id.  Returns the
final engine, the count of inserted rows, and the skip count. -/
def recoverRows (dim : Nat) : List RecRow → RecEngine → RecEngine × Nat × Nat
  | [], e => (e, 0, 0)
  | r :: rs, e =>
    if r.raw.length ≠ dim * 4 then
      match recoverRows dim rs e with
      | (e', ins, skip) => (e', ins, skip + 1)
    else
      match recoverRows dim rs (recInsert e r.id r.raw) with
      | (e', ins, skip) => (e', ins + 1, skip)

/-- Engine behaviour oracle in which no engine operation fails and every
search returns no matches. -/
def engOf (vs : List (Nat × List Int)) (cap : Nat) : Engine :=
  { vectors := vs
    capacity := cap
    memUsage := 0
    reserveFail := fun _ => false
    addFail := fun _ => false
    searchFn := fun _ _ => some [] }

/-- Store used to exhibit the missing dimension check of `search`:
dimension 3, empty engine. -/
def c1store : VexusIndex :=
  { index := engOf [] 10, mapping := Mapping.new, dimensions := 3 }

/-- Store whose engine rejects every reservation, to exercise the reserve
failure path of `upsert`: dimension 1, capacity 0. -/
def c2store : VexusIndex :=
  { index :=
      { vectors := []
        capacity := 0
        memUsage := 0
        reserveFail := fun _ => true
        addFail := fun _ => false
        searchFn := fun _ _ => some [] }
    mapping := Mapping.new
    dimensions := 1 }

/-- Store with 4 stored vectors and capacity 5 (dimension 1), sitting
exactly at `size + 1 = capacity`. -/
def c3store : VexusIndex :=
  { index := engOf [(7, [0]), (8, [0]), (9, [0]), (10, [0])] 5
    mapping := Mapping.new
    dimensions := 1 }

/-- Store whose engine rejects `add` for label 1 only, to exercise the
partial batch failure: dimension 1, ample capacity. -/
def c6store : VexusIndex :=
  { index :=
      { vectors := []
        capacity := 10
        memUsage := 0
        reserveFail := fun _ => false
        addFail := fun l => l == 1
        searchFn := fun _ _ => some [] }
    mapping := Mapping.new
    dimensions := 1 }

/-- Store whose engine holds two vectors (labels 0 and 5) and reports both
as matches, while the mapping knows only label 0. -/
def c10store : VexusIndex :=
  { index :=
      { vectors := [(0, [0]), (5, [0])]
        capacity := 10
        memUsage := 0
        reserveFail := fun _ => false
        addFail := fun _ => false
        searchFn := fun _ _ => some [(0, 0), (5, 1)] }
    mapping := { label_to_tag := [(0, "a")], tag_to_label := [("a", 0)], next_label := 1 }
    dimensions := 1 }

example :
    (c2store.upsert ["a"] [0, 0, 0, 0]).2 = some (Err.reserveFailed 0 1) := by
  decide
example :
    (c3store.upsert ["e"] [0, 0, 0, 0]).1.index.capacity = 5 := by
  decide
example :
    (c6store.upsert ["a", "b"] [1, 0, 0, 0, 2, 0, 0, 0]).2
      = some (Err.addFailed "b" 1) := by
  decide
example :
    (c6store.upsert ["a", "b"] [1, 0, 0, 0, 2, 0, 0, 0]).1.index.vectors
      = [(0, [1])] := by
  decide
example : c1store.search [0, 0, 0, 0] 1 = Except.ok [] := rfl
example : c10store.search [] 2 = Except.ok [⟨"a", 1⟩] := rfl
example :
    (runOps [MapOp.create "a", MapOp.create "b", MapOp.removeTag "b",
      MapOp.roundtrip]).2 = [1] := by decide
example :
    ((runOps [MapOp.create "a", MapOp.create "b", MapOp.removeTag "b",
      MapOp.roundtrip]).1.get_or_create_label "c").1 = 1 := by decide

theorem alookup_eq_some_mem {α β : Type} [DecidableEq α] {l : List (α × β)}
    {k : α} {v : β} (h : alookup l k = some v) : (k, v) ∈ l := by
  induction l with
  | nil => simp [alookup] at h
  | cons p rest ih =>
    rcases p with ⟨a, b⟩
    by_cases hp : a = k
    · simp [alookup, hp] at h
      subst hp
      subst h
      exact List.mem_cons_self _ _
    · simp [alookup, hp] at h
      exact List.mem_cons_of_mem _ (ih h)

theorem alookup_eq_none_of_forall {α β : Type} [DecidableEq α]
    {l : List (α × β)} {k : α} (h : ∀ p ∈ l, p.1 ≠ k) : alookup l k = none := by
  induction l with
  | nil => rfl
  | cons p rest ih =>
    have hp : p.1 ≠ k := h p (by simp)
    simp [alookup, hp]
    exact ih (fun q hq => h q (by simp [hq]))

theorem forall_ne_of_alookup_eq_none {α β : Type} [DecidableEq α]
    {l : List (α × β)} {k : α} (h : alookup l k = none) :
    ∀ p ∈ l, p.1 ≠ k := by
  induction l with
  | nil => simp
  | cons p rest ih =>
    by_cases hp : p.1 = k
    · simp [alookup, hp] at h
    · simp [alookup, hp] at h
      intro q hq
      rcases List.mem_cons.mp hq with hq | hq
      · simpa [hq] using hp
      · exact ih h q hq

theorem alookup_filter_ne {α β : Type} [DecidableEq α]
    {k k' : α} (l : List (α × β)) (h : k' ≠ k) :
    alookup (l.filter (fun p => decide (p.1 ≠ k))) k' = alookup l k' := by
  induction l with
  | nil => rfl
  | cons p rest ih =>
    rw [List.filter_cons]
    by_cases hp : p.1 = k
    · have hp' : p.1 ≠ k' := fun hh => h (hh ▸ hp)
      rw [if_neg (by simp [hp])]
      rw [ih]
      simp [alookup, hp']
    · rw [if_pos (by simp [hp])]
      by_cases hpk : p.1 = k'
      · simp [alookup, hpk]
      · simp only [alookup, if_neg hpk]
        exact ih

theorem alookup_alInsert_self {α β : Type} [DecidableEq α]
    (k : α) (v : β) (l : List (α × β)) : alookup (alInsert k v l) k = some v := by
  simp [alInsert, alookup]

theorem alookup_alInsert_ne {α β : Type} [DecidableEq α]
    {k k' : α} (v : β) (l : List (α × β)) (h : k' ≠ k) :
    alookup (alInsert k v l) k' = alookup l k' := by
  have hk : ¬(k = k') := fun hh => h hh.symm
  simp only [alInsert, alookup, hk, if_false]
  exact alookup_filter_ne l h

theorem alookup_alErase_self {α β : Type} [DecidableEq α]
    (k : α) (l : List (α × β)) : alookup (alErase k l) k = none := by
  apply alookup_eq_none_of_forall
  intro p hp
  have := List.of_mem_filter hp
  simpa using this

theorem alookup_alErase_ne {α β : Type} [DecidableEq α]
    {k k' : α} (l : List (α × β)) (h : k' ≠ k) :
    alookup (alErase k l) k' = alookup l k' :=
  alookup_filter_ne l h

theorem mem_alInsert {α β : Type} [DecidableEq α]
    {k : α} {v : β} {l : List (α × β)} {p : α × β} (h : p ∈ alInsert k v l) :
    p = (k, v) ∨ p ∈ l := by
  simp only [alInsert, List.mem_cons] at h
  rcases h with h | h
  · exact Or.inl h
  · exact Or.inr (List.mem_of_mem_filter h)

theorem mem_alErase {α β : Type} [DecidableEq α]
    {k : α} {l : List (α × β)} {p : α × β} (h : p ∈ alErase k l) : p ∈ l :=
  List.mem_of_mem_filter h

theorem goc_of_found {m : Mapping} {t : String} {l : Nat}
    (h : alookup m.tag_to_label t = some l) :
    m.get_or_create_label t = (l, m) := by
  simp [Mapping.get_or_create_label, h]

theorem goc_of_fresh {m : Mapping} {t : String}
    (h : alookup m.tag_to_label t = none) :
    m.get_or_create_label t =
      (m.next_label,
        { label_to_tag := alInsert m.next_label t m.label_to_tag
          tag_to_label := alInsert t m.next_label m.tag_to_label
          next_label := (m.next_label + 1) % u32Mod }) := by
  simp [Mapping.get_or_create_label, h]

theorem goc_lookup_self (m : Mapping) (t : String) :
    alookup (m.get_or_create_label t).2.tag_to_label t
      = some (m.get_or_create_label t).1 := by
  cases h : alookup m.tag_to_label t with
  | some l => rw [goc_of_found h]; exact h
  | none => rw [goc_of_fresh h]; exact alookup_alInsert_self _ _ _

theorem goc_lookup_ne (m : Mapping) {t t' : String} (h : t' ≠ t) :
    alookup (m.get_or_create_label t).2.tag_to_label t'
      = alookup m.tag_to_label t' := by
  cases hl : alookup m.tag_to_label t with
  | some l => rw [goc_of_found hl]
  | none => rw [goc_of_fresh hl]; exact alookup_alInsert_ne _ _ h

theorem wf_new : Mapping.new.WF := by
  refine ⟨fun t l => ?_, ⟨fun p hp => ?_, fun p hp => ?_⟩⟩
  · simp [Mapping.new, alookup]
  · simp [Mapping.new] at hp
  · simp [Mapping.new] at hp

theorem inverse_goc (m : Mapping) (t : String) (hwf : m.WF) :
    (m.get_or_create_label t).2.Inverse := by
  cases hl : alookup m.tag_to_label t with
  | some l => rw [goc_of_found hl]; exact hwf.1
  | none =>
    rw [goc_of_fresh hl]
    intro t' l'
    have hltn : alookup m.label_to_tag m.next_label = none :=
      alookup_eq_none_of_forall (fun p hp => Nat.ne_of_lt (hwf.2.2 p hp))
    by_cases ht' : t' = t
    · subst ht'
      by_cases hl' : l' = m.next_label
      · subst hl'
        simp [alookup_alInsert_self]
      · constructor
        · intro h
          rw [alookup_alInsert_self] at h
          exact absurd (Option.some.inj h).symm hl'
        · intro h
          rw [alookup_alInsert_ne _ _ hl'] at h
          have := (hwf.1 t' l').mpr h
          rw [hl] at this
          exact absurd this (by simp)
    · by_cases hl' : l' = m.next_label
      · subst hl'
        constructor
        · intro h
          rw [alookup_alInsert_ne _ _ ht'] at h
          have := (hwf.1 t' m.next_label).mp h
          rw [hltn] at this
          exact absurd this (by simp)
        · intro h
          rw [alookup_alInsert_self] at h
          exact absurd (Option.some.inj h).symm ht'
      · rw [alookup_alInsert_ne _ _ ht', alookup_alInsert_ne _ _ hl']
        exact hwf.1 t' l'

theorem inverse_remove (m : Mapping) (t : String) (hwf : m.WF) :
    (m.remove t).2.Inverse := by
  cases hl : alookup m.tag_to_label t with
  | none => simp [Mapping.remove, hl]; exact hwf.1
  | some l₀ =>
    simp only [Mapping.remove, hl]
    intro t' l'
    by_cases ht' : t' = t
    · subst ht'
      constructor
      · intro h
        rw [alookup_alErase_self] at h
        exact absurd h (by simp)
      · intro h
        by_cases hl' : l' = l₀
        · subst hl'
          rw [alookup_alErase_self] at h
          exact absurd h (by simp)
        · rw [alookup_alErase_ne _ hl'] at h
          have := (hwf.1 t' l').mpr h
          rw [hl] at this
          exact absurd (Option.some.inj this).symm hl'
    · by_cases hl' : l' = l₀
      · subst hl'
        constructor
        · intro h
          rw [alookup_alErase_ne _ ht'] at h
          have h1 := (hwf.1 t' l').mp h
          have h2 := (hwf.1 t l').mp hl
          rw [h1] at h2
          exact absurd (Option.some.inj h2) ht'
        · intro h
          rw [alookup_alErase_self] at h
          exact absurd h (by simp)
      · rw [alookup_alErase_ne _ ht', alookup_alErase_ne _ hl']
        exact hwf.1 t' l'

theorem wf_goc (m : Mapping) (t : String) (hwf : m.WF)
    (hb : m.next_label + 1 < u32Mod) : (m.get_or_create_label t).2.WF := by
  refine ⟨inverse_goc m t hwf, ?_, ?_⟩
  all_goals cases hl : alookup m.tag_to_label t with
  | some l => rw [goc_of_found hl]; first | exact hwf.2.1 | exact hwf.2.2
  | none =>
    rw [goc_of_fresh hl]
    intro p hp
    simp only [Nat.mod_eq_of_lt hb]
    rcases mem_alInsert hp with h | h
    · subst h; exact Nat.lt_succ_self _
    · first
      | exact Nat.lt_succ_of_lt (hwf.2.1 p h)
      | exact Nat.lt_succ_of_lt (hwf.2.2 p h)

theorem goc_fst_lt (m : Mapping) (t : String) (hwf : m.WF)
    (hb : m.next_label + 1 < u32Mod) :
    (m.get_or_create_label t).1 < (m.get_or_create_label t).2.next_label := by
  cases hl : alookup m.tag_to_label t with
  | some l =>
    rw [goc_of_found hl]
    exact hwf.2.1 _ (alookup_eq_some_mem hl)
  | none =>
    rw [goc_of_fresh hl]
    simp only [Nat.mod_eq_of_lt hb]
    exact Nat.lt_succ_self _

theorem goc_next_le (m : Mapping) (t : String) (hb : m.next_label + 1 < u32Mod) :
    (m.get_or_create_label t).2.next_label ≤ m.next_label + 1 ∧
    m.next_label ≤ (m.get_or_create_label t).2.next_label := by
  cases hl : alookup m.tag_to_label t with
  | some l => rw [goc_of_found hl]; exact ⟨Nat.le_succ _, Nat.le_refl _⟩
  | none =>
    rw [goc_of_fresh hl]
    simp only [Nat.mod_eq_of_lt hb]
    exact ⟨Nat.le_refl _, Nat.le_succ _⟩

/-- C7: the tag-to-label and label-to-tag maps stay inverse images of each
other: on any well-formed mapping state (inverse property plus the
reachability invariant that all recorded labels are below the allocation
counter), both `get_or_create_label` and `remove` preserve the inverse
property `tag_to_label[t] == l ⇔ label_to_tag[l] == t`. -/
theorem mapping_inverse_preserved (m : Mapping) (t : String) (h : m.WF) :
    ((m.get_or_create_label t).2).Inverse ∧ ((m.remove t).2).Inverse :=
  ⟨inverse_goc m t h, inverse_remove m t h⟩

theorem mapping_inverse_preserved_witness :
    ((Mapping.new.get_or_create_label "a").2).Inverse ∧
    ((Mapping.new.remove "a").2).Inverse :=
  mapping_inverse_preserved Mapping.new "a" wf_new

/-- C8: `get_or_create_label` is idempotent — a second call with the same
tag returns the same label and leaves the mapping unchanged — and each
distinct tag grows the tag map by exactly one entry: a fresh tag adds one
binding, a known tag adds none. -/
theorem get_or_create_idempotent (m : Mapping) (t : String) :
    ((m.get_or_create_label t).2.get_or_create_label t).1
        = (m.get_or_create_label t).1 ∧
    ((m.get_or_create_label t).2.get_or_create_label t).2
        = (m.get_or_create_label t).2 ∧
    (alookup m.tag_to_label t = none →
      (m.get_or_create_label t).2.tag_to_label.length
        = m.tag_to_label.length + 1) ∧
    (∀ l, alookup m.tag_to_label t = some l → (m.get_or_create_label t).2 = m) := by
  refine ⟨?_, ?_, ?_, ?_⟩
  · rw [goc_of_found (goc_lookup_self m t)]
  · rw [goc_of_found (goc_lookup_self m t)]
  · intro h
    have hne := forall_ne_of_alookup_eq_none h
    rw [goc_of_fresh h]
    simp only [alInsert, List.length_cons]
    rw [List.filter_eq_self.mpr (fun p hp => by simpa using hne p hp)]
  · intro l h
    rw [goc_of_found h]

theorem get_or_create_idempotent_witness :
    ((Mapping.new.get_or_create_label "a").2.get_or_create_label "a").1
        = (Mapping.new.get_or_create_label "a").1 ∧
    (Mapping.new.get_or_create_label "a").2.tag_to_label.length
        = Mapping.new.tag_to_label.length + 1 :=
  ⟨(get_or_create_idempotent Mapping.new "a").1,
   (get_or_create_idempotent Mapping.new "a").2.2.1 rfl⟩

theorem runOps_inv (ops : List MapOp) : ∀ (m : Mapping) (ret : List Nat),
    (∀ op ∈ ops, op ≠ MapOp.roundtrip) →
    m.LabelsBounded →
    (∀ l ∈ ret, l < m.next_label) →
    m.next_label + ops.length < u32Mod →
    (ops.foldl mapStep (m, ret)).1.LabelsBounded ∧
    (∀ l ∈ (ops.foldl mapStep (m, ret)).2,
      l < (ops.foldl mapStep (m, ret)).1.next_label) ∧
    (ops.foldl mapStep (m, ret)).1.next_label ≤ m.next_label + ops.length := by
  induction ops with
  | nil =>
    intro m ret _ hb hr _
    exact ⟨hb, hr, Nat.le_refl _⟩
  | cons op rest ih =>
    intro m ret hrt hb hr hlen
    simp only [List.length_cons] at hlen
    have hrt' : ∀ o ∈ rest, o ≠ MapOp.roundtrip :=
      fun o ho => hrt o (List.mem_cons_of_mem _ ho)
    rw [List.foldl_cons]
    cases op with
    | create t =>
      cases hl : alookup m.tag_to_label t with
      | some l =>
        have hstep : mapStep (m, ret) (MapOp.create t) = (m, ret) := by
          simp [mapStep, goc_of_found hl]
        rw [hstep]
        have := ih m ret hrt' hb hr (by omega)
        exact ⟨this.1, this.2.1,
          Nat.le_trans this.2.2 (by simp only [List.length_cons]; omega)⟩
      | none =>
        have hb1 : m.next_label + 1 < u32Mod := by omega
        have hmod : (m.next_label + 1) % u32Mod = m.next_label + 1 :=
          Nat.mod_eq_of_lt hb1
        have hstep : mapStep (m, ret) (MapOp.create t) =
            ({ label_to_tag := alInsert m.next_label t m.label_to_tag
               tag_to_label := alInsert t m.next_label m.tag_to_label
               next_label := (m.next_label + 1) % u32Mod }, ret) := by
          simp [mapStep, goc_of_fresh hl]
        rw [hstep]
        have hbnd : Mapping.LabelsBounded
            { label_to_tag := alInsert m.next_label t m.label_to_tag
              tag_to_label := alInsert t m.next_label m.tag_to_label
              next_label := (m.next_label + 1) % u32Mod } := by
          constructor
          · intro p hp
            simp only [hmod]
            rcases mem_alInsert hp with h | h
            · subst h; exact Nat.lt_succ_self _
            · exact Nat.lt_succ_of_lt (hb.1 p h)
          · intro p hp
            simp only [hmod]
            rcases mem_alInsert hp with h | h
            · subst h; exact Nat.lt_succ_self _
            · exact Nat.lt_succ_of_lt (hb.2 p h)
        have hret : ∀ l ∈ ret, l <
            (({ label_to_tag := alInsert m.next_label t m.label_to_tag
                tag_to_label := alInsert t m.next_label m.tag_to_label
                next_label := (m.next_label + 1) % u32Mod } : Mapping)).next_label := by
          intro l hlm
          simp only [hmod]
          exact Nat.lt_succ_of_lt (hr l hlm)
        have hlen' : (m.next_label + 1) % u32Mod + rest.length < u32Mod := by
          rw [hmod]; omega
        have := ih _ ret hrt' hbnd hret hlen'
        refine ⟨this.1, this.2.1, ?_⟩
        refine Nat.le_trans this.2.2 ?_
        show (m.next_label + 1) % u32Mod + rest.length
          ≤ m.next_label + (MapOp.create t :: rest).length
        rw [hmod]
        simp only [List.length_cons]
        omega
    | removeTag t =>
      cases hl : alookup m.tag_to_label t with
      | none =>
        have hstep : mapStep (m, ret) (MapOp.removeTag t) = (m, ret) := by
          simp [mapStep, Mapping.remove, hl]
        rw [hstep]
        have := ih m ret hrt' hb hr (by omega)
        exact ⟨this.1, this.2.1,
          Nat.le_trans this.2.2 (by simp only [List.length_cons]; omega)⟩
      | some l =>
        have hstep : mapStep (m, ret) (MapOp.removeTag t) =
            ({ label_to_tag := alErase l m.label_to_tag
               tag_to_label := alErase t m.tag_to_label
               next_label := m.next_label }, l :: ret) := by
          simp [mapStep, Mapping.remove, hl]
        rw [hstep]
        have hbnd : Mapping.LabelsBounded
            { label_to_tag := alErase l m.label_to_tag
              tag_to_label := alErase t m.tag_to_label
              next_label := m.next_label } :=
          ⟨fun p hp => hb.1 p (mem_alErase hp), fun p hp => hb.2 p (mem_alErase hp)⟩
        have hret : ∀ x ∈ l :: ret, x <
            (({ label_to_tag := alErase l m.label_to_tag
                tag_to_label := alErase t m.tag_to_label
                next_label := m.next_label } : Mapping)).next_label := by
          intro x hx
          rcases List.mem_cons.mp hx with hx | hx
          · subst hx
            exact hb.1 _ (alookup_eq_some_mem hl)
          · exact hr x hx
        have := ih _ _ hrt' hbnd hret
          (by show m.next_label + rest.length < u32Mod; omega)
        refine ⟨this.1, this.2.1, Nat.le_trans this.2.2 ?_⟩
        show m.next_label + rest.length
          ≤ m.next_label + (MapOp.removeTag t :: rest).length
        simp only [List.length_cons]
        omega
    | roundtrip =>
      exact absurd rfl (hrt MapOp.roundtrip (by simp))

/-- C4 counterexample: the claim as stated is false once a save/load
round trip occurs.  Create tags "a" (label 0) and "b" (label 1), remove
"b" (retiring label 1), then save and load: the restored counter is
`max(existing labels) + 1 = 1`, so creating the new tag "c" returns
label 1, which is exactly the previously retired label. -/
theorem label_reuse_after_load_cex :
    alookup (runOps [MapOp.create "a", MapOp.create "b", MapOp.removeTag "b",
        MapOp.roundtrip]).1.tag_to_label "c" = none ∧
    ((runOps [MapOp.create "a", MapOp.create "b", MapOp.removeTag "b",
        MapOp.roundtrip]).1.get_or_create_label "c").1
      ∈ (runOps [MapOp.create "a", MapOp.create "b", MapOp.removeTag "b",
        MapOp.roundtrip]).2 := by
  decide

/-- C4 amended: in a session containing no save/load round trip (and
fewer than `2^32` operations, so the `u32` counter cannot wrap), a label
returned by `get_or_create_label` for a tag not currently in the mapping
differs from every label previously retired by `remove`.  After a load,
the counter restarts at `max(existing labels) + 1` and retired labels
above that bound can be handed out again. -/
theorem labels_not_reused_without_load (ops : List MapOp) (t : String)
    (hrt : ∀ op ∈ ops, op ≠ MapOp.roundtrip)
    (hlen : ops.length < u32Mod)
    (hfresh : alookup (runOps ops).1.tag_to_label t = none) :
    ((runOps ops).1.get_or_create_label t).1 ∉ (runOps ops).2 := by
  have hinv := runOps_inv ops Mapping.new []
    hrt
    ⟨by simp [Mapping.new], by simp [Mapping.new]⟩
    (by simp)
    (by show Mapping.new.next_label + ops.length < u32Mod
        simp only [Mapping.new]
        omega)
  rw [goc_of_fresh hfresh]
  intro hmem
  exact absurd (hinv.2.1 _ hmem) (Nat.lt_irrefl _)

theorem labels_not_reused_without_load_witness :
    ((runOps [MapOp.create "a", MapOp.removeTag "a"]).1.get_or_create_label "b").1
      ∉ (runOps [MapOp.create "a", MapOp.removeTag "a"]).2 :=
  labels_not_reused_without_load [MapOp.create "a", MapOp.removeTag "a"] "b"
    (by decide) (by decide) (by decide)

/-- C5: the flat buffer of a batch upsert is validated against
`count * dimension` by one size check before any per-pair work; on
failure the operation returns a size-mismatch error and leaves the store
(mapping, engine, and hence `stats()`) unchanged. -/
theorem upsert_batch_size_check (s : VexusIndex) (tags : List String)
    (vectors : List Nat)
    (h : (decodeF32s vectors).length ≠ tags.length * s.dimensions) :
    s.upsert tags vectors
      = (s, some (Err.sizeMismatch (tags.length * s.dimensions)
          (decodeF32s vectors).length)) ∧
    (s.upsert tags vectors).1.stats = s.stats := by
  have he : s.upsert tags vectors
      = (s, some (Err.sizeMismatch (tags.length * s.dimensions)
          (decodeF32s vectors).length)) := by
    simp [VexusIndex.upsert, h]
  exact ⟨he, by rw [he]⟩

theorem upsert_batch_size_check_witness :
    c1store.upsert ["a"] [] = (c1store, some (Err.sizeMismatch 3 0)) :=
  (upsert_batch_size_check c1store ["a"] [] (by decide)).1

/-- C2 counterexample: the claim that a reserve failure is only logged
and never makes the insert return an error is false.  On a store whose
engine rejects the reservation, the upsert returns the reserve error and
inserts nothing. -/
theorem reserve_failure_aborts_upsert_cex :
    (c2store.upsert ["a"] [0, 0, 0, 0]).2 = some (Err.reserveFailed 0 1) ∧
    (c2store.upsert ["a"] [0, 0, 0, 0]).1.index.size = 0 := by
  decide

/-- C2 amended: when the capacity-growth step inside an upsert is needed
and the engine's reserve fails, the upsert aborts, propagating the
failure as its own error, and no pair of the batch is inserted (the store
is returned unchanged). -/
theorem reserve_failure_aborts_upsert (s : VexusIndex) (tags : List String)
    (vectors : List Nat)
    (hsz : (decodeF32s vectors).length = tags.length * s.dimensions)
    (hgrow : s.index.size + tags.length > s.index.capacity)
    (hfail : s.index.reserveFail (3 * (s.index.size + tags.length) / 2) = true) :
    s.upsert tags vectors
      = (s, some (Err.reserveFailed s.index.capacity
          (3 * (s.index.size + tags.length) / 2))) := by
  simp [VexusIndex.upsert, hsz, hgrow, Engine.reserve, hfail]

theorem reserve_failure_aborts_upsert_witness :
    c2store.upsert ["a"] [0, 0, 0, 0]
      = (c2store, some (Err.reserveFailed c2store.index.capacity
          (3 * (c2store.index.size + 1) / 2))) :=
  reserve_failure_aborts_upsert c2store ["a"] [0, 0, 0, 0]
    (by decide) (by decide) (by decide)

theorem upsert_eq_loop (s : VexusIndex) (tags : List String) (vectors : List Nat)
    (e : Engine)
    (hsz : (decodeF32s vectors).length = tags.length * s.dimensions)
    (he : (if s.index.size + tags.length > s.index.capacity
           then s.index.reserve (3 * (s.index.size + tags.length) / 2)
           else some s.index) = some e) :
    s.upsert tags vectors =
      ({ s with
          mapping := (upsertLoop s.dimensions (decodeF32s vectors) tags 0 s.mapping e).1
          index := (upsertLoop s.dimensions (decodeF32s vectors) tags 0 s.mapping e).2.1 },
       (upsertLoop s.dimensions (decodeF32s vectors) tags 0 s.mapping e).2.2) := by
  rcases hl : upsertLoop s.dimensions (decodeF32s vectors) tags 0 s.mapping e
    with ⟨m', e', err⟩
  simp [VexusIndex.upsert, hsz, he, hl]

theorem upsertLoop_engine_fields (dim : Nat) (vd : List Int) :
    ∀ (tags : List String) (i : Nat) (m : Mapping) (e : Engine),
      (upsertLoop dim vd tags i m e).2.1.capacity = e.capacity ∧
      (upsertLoop dim vd tags i m e).2.1.addFail = e.addFail := by
  intro tags
  induction tags with
  | nil => intro i m e; exact ⟨rfl, rfl⟩
  | cons t ts ih =>
    intro i m e
    rcases hg : m.get_or_create_label t with ⟨l, m'⟩
    simp only [upsertLoop, hg]
    by_cases haf : e.addFail l = true
    · have hadd : (e.removeLabel l).add l ((vd.drop (i * dim)).take dim) = none := by
        simp [Engine.add, Engine.removeLabel, haf]
      rw [hadd]
      exact ⟨rfl, rfl⟩
    · have hadd : (e.removeLabel l).add l ((vd.drop (i * dim)).take dim)
          = some { e.removeLabel l with
              vectors := (l, (vd.drop (i * dim)).take dim)
                :: (e.removeLabel l).vectors } := by
        simp [Engine.add, Engine.removeLabel, haf]
      rw [hadd]
      exact ih (i + 1) m' _

/-- C3 counterexample: the claim predicts growth exactly when
`size + 1 >= capacity` (to `ceil(capacity * 1.5)`), but on a store with
size 4 and capacity 5 — where `size + 1 >= capacity` holds — the insert
succeeds without any reservation and the capacity stays 5. -/
theorem capacity_growth_threshold_cex :
    c3store.index.size + 1 ≥ c3store.index.capacity ∧
    (c3store.upsert ["e"] [0, 0, 0, 0]).2 = none ∧
    (c3store.upsert ["e"] [0, 0, 0, 0]).1.index.capacity
      = c3store.index.capacity := by
  decide

/-- C3 amended: for a single-vector upsert that passes the size check,
capacity grows exactly when `current_size + 1 > current_capacity`
(strictly greater, not `>=`), and the reserved amount is
`floor((current_size + 1) * 1.5)` — sized to the required count, not to
the old capacity; when the threshold is not crossed the capacity is left
unchanged. -/
theorem capacity_growth_policy (s : VexusIndex) (t : String) (vectors : List Nat)
    (hsz : (decodeF32s vectors).length = 1 * s.dimensions) :
    (s.index.size + 1 ≤ s.index.capacity →
      (s.upsert [t] vectors).1.index.capacity = s.index.capacity) ∧
    (s.index.size + 1 > s.index.capacity →
      s.index.reserveFail (3 * (s.index.size + 1) / 2) = false →
      (s.upsert [t] vectors).1.index.capacity = 3 * (s.index.size + 1) / 2) := by
  constructor
  · intro hle
    have hng : ¬(s.index.size + 1 > s.index.capacity) := by omega
    have he : (if s.index.size + ["e"].length > s.index.capacity
        then s.index.reserve (3 * (s.index.size + ["e"].length) / 2)
        else some s.index) = some s.index := by
      simp only [List.length_cons, List.length_nil]
      rw [if_neg hng]
    rw [upsert_eq_loop s [t] vectors s.index hsz he]
    exact (upsertLoop_engine_fields s.dimensions (decodeF32s vectors) [t] 0
      s.mapping s.index).1
  · intro hgt hok
    have hcap : s.index.capacity < 3 * (s.index.size + 1) / 2 := by omega
    have he : (if s.index.size + ["e"].length > s.index.capacity
        then s.index.reserve (3 * (s.index.size + ["e"].length) / 2)
        else some s.index)
          = some { s.index with capacity := 3 * (s.index.size + 1) / 2 } := by
      simp only [List.length_cons, List.length_nil]
      rw [if_pos hgt]
      simp [Engine.reserve, hok]
      omega
    rw [upsert_eq_loop s [t] vectors _ hsz he]
    exact (upsertLoop_engine_fields s.dimensions (decodeF32s vectors) [t] 0
      s.mapping _).1

theorem capacity_growth_policy_witness :
    (c3store.upsert ["e"] [0, 0, 0, 0]).1.index.capacity
      = c3store.index.capacity :=
  (capacity_growth_policy c3store "e" [0, 0, 0, 0] (by decide)).1 (by decide)

/-- C1 counterexample: the claim that `search` validates
`len(query) == dimension` and fails on mismatch is false: on a
dimension-3 store, a 4-byte query (one float) is accepted and the search
returns `ok` instead of a dimension-mismatch error. -/
theorem search_missing_dimension_check_cex :
    (decodeF32s [0, 0, 0, 0]).length ≠ c1store.dimensions ∧
    c1store.search [0, 0, 0, 0] 1 = Except.ok [] := by
  exact ⟨by decide, rfl⟩

/-- C1 amended: `search` performs no dimension validation at all — even
when the decoded query length differs from the configured dimension it
never returns a size-mismatch error, and whenever the engine search
yields matches the call succeeds, delegating the buffer as-is. -/
theorem search_never_dimension_error (s : VexusIndex) (query : List Nat) (k : Nat)
    (hq : (decodeF32s query).length ≠ s.dimensions) :
    (∀ expected got,
      s.search query k ≠ Except.error (Err.sizeMismatch expected got)) ∧
    (∀ ms, s.index.searchFn (decodeF32s query) k = some ms →
      ∃ rs, s.search query k = Except.ok rs) := by
  constructor
  · intro expected got
    cases h : s.index.searchFn (decodeF32s query) k with
    | none => simp [VexusIndex.search, h]
    | some ms => simp [VexusIndex.search, h]
  · intro ms h
    refine ⟨ms.filterMap (fun p =>
      (s.mapping.get_tag (p.1 % u32Mod)).map (fun tag => ⟨tag, 1 - p.2⟩)), ?_⟩
    simp [VexusIndex.search, h]

theorem search_never_dimension_error_witness :
    c1store.search [0, 0, 0, 0] 1 ≠ Except.error (Err.sizeMismatch 3 1) :=
  (search_never_dimension_error c1store [0, 0, 0, 0] 1 (by decide)).1 3 1

/-- C10: `search` silently omits every engine match whose label has no
entry in the tag mapping: there is a store state and a query for which
the engine holds at least `k` vectors and reports `k` matches, yet the
call returns `ok` with fewer than `k` results and no other indication. -/
theorem search_drops_unmapped_labels :
    ∃ (s : VexusIndex) (q : List Nat) (k : Nat) (rs : List SearchResult),
      k ≤ s.index.size ∧ s.search q k = Except.ok rs ∧ rs.length < k := by
  refine ⟨c10store, [], 2, [⟨"a", 1⟩], by decide, rfl, by decide⟩

theorem assignedLabels_cons (m : Mapping) (t : String) (ts : List String) :
    assignedLabels m (t :: ts)
      = (m.get_or_create_label t).1
        :: assignedLabels (m.get_or_create_label t).2 ts := by
  rcases hg : m.get_or_create_label t with ⟨l, m'⟩
  simp [assignedLabels, hg]

theorem assignedLabels_length (tags : List String) :
    ∀ m : Mapping, (assignedLabels m tags).length = tags.length := by
  induction tags with
  | nil => intro m; rfl
  | cons t ts ih =>
    intro m
    rw [assignedLabels_cons]
    simp [ih]

theorem label_ne_assigned (ts : List String) :
    ∀ (m : Mapping) (t : String) (l₀ : Nat),
      m.WF → m.next_label + ts.length < u32Mod → t ∉ ts →
      alookup m.tag_to_label t = some l₀ →
      l₀ ∉ assignedLabels m ts := by
  induction ts with
  | nil => intro m t l₀ _ _ _ _; simp [assignedLabels]
  | cons t₁ ts' ih =>
    intro m t l₀ hwf hb ht hl
    simp only [List.length_cons] at hb
    rw [assignedLabels_cons]
    intro hmem
    have ht₁ : t ≠ t₁ := fun hh => ht (hh ▸ List.mem_cons_self _ _)
    rcases List.mem_cons.mp hmem with h | h
    · cases hg : alookup m.tag_to_label t₁ with
      | some l₁ =>
        rw [goc_of_found hg] at h
        have h1 := (hwf.1 t l₀).mp hl
        have h2 := (hwf.1 t₁ l₁).mp hg
        rw [h] at h1
        rw [h1] at h2
        exact ht₁ (Option.some.inj h2)
      | none =>
        rw [goc_of_fresh hg] at h
        have hlt := hwf.2.1 _ (alookup_eq_some_mem hl)
        rw [h] at hlt
        exact Nat.lt_irrefl _ hlt
    · have hb1 : m.next_label + 1 < u32Mod := by omega
      have hwf' := wf_goc m t₁ hwf hb1
      have hnext := goc_next_le m t₁ hb1
      have hlook : alookup (m.get_or_create_label t₁).2.tag_to_label t = some l₀ := by
        rw [goc_lookup_ne m ht₁]
        exact hl
      have hb' : (m.get_or_create_label t₁).2.next_label + ts'.length < u32Mod := by
        have h1 := hnext.1
        omega
      exact ih _ t l₀ hwf' hb' (fun hh => ht (List.mem_cons_of_mem _ hh)) hlook h

theorem upsertLoop_preserves (dim : Nat) (vd : List Int) :
    ∀ (tags : List String) (i : Nat) (m : Mapping) (e : Engine)
      (p : Nat × List Int),
      p ∈ e.vectors → p.1 ∉ assignedLabels m tags →
      p ∈ (upsertLoop dim vd tags i m e).2.1.vectors := by
  intro tags
  induction tags with
  | nil => intro i m e p hp _; exact hp
  | cons t ts ih =>
    intro i m e p hp hna
    rcases hg : m.get_or_create_label t with ⟨l, m'⟩
    rw [assignedLabels_cons, hg] at hna
    simp only [List.mem_cons, not_or] at hna
    simp only [upsertLoop, hg]
    have hp1 : p ∈ (e.removeLabel l).vectors := by
      simp only [Engine.removeLabel]
      exact List.mem_filter.mpr ⟨hp, by simpa using hna.1⟩
    by_cases haf : e.addFail l = true
    · have hadd : (e.removeLabel l).add l ((vd.drop (i * dim)).take dim) = none := by
        simp [Engine.add, Engine.removeLabel, haf]
      rw [hadd]
      exact hp1
    · have hadd : (e.removeLabel l).add l ((vd.drop (i * dim)).take dim)
          = some { e.removeLabel l with
              vectors := (l, (vd.drop (i * dim)).take dim)
                :: (e.removeLabel l).vectors } := by
        simp [Engine.add, Engine.removeLabel, haf]
      rw [hadd]
      exact ih (i + 1) m' _ p (List.mem_cons_of_mem _ hp1) hna.2

theorem list_get_of_eq {α : Type} {l l' : List α} (h : l = l') (i : Fin l.length) :
    l.get i = l'.get ⟨i.1, h ▸ i.2⟩ := by
  subst h
  rfl

theorem upsertLoop_fail (dim : Nat) (vd : List Int) :
    ∀ (tags : List String) (i : Nat) (m : Mapping) (e : Engine) (j : Nat)
      (hwf : m.WF) (hnd : tags.Nodup)
      (hb : m.next_label + tags.length < u32Mod)
      (hj : j < tags.length)
      (hj2 : j < (assignedLabels m tags).length)
      (hfj : e.addFail ((assignedLabels m tags).get ⟨j, hj2⟩) = true)
      (hok : ∀ i2, i2 < j → ∀ h2 : i2 < (assignedLabels m tags).length,
        e.addFail ((assignedLabels m tags).get ⟨i2, h2⟩) = false),
      (upsertLoop dim vd tags i m e).2.2
        = some (Err.addFailed (tags.get ⟨j, hj⟩)
            ((assignedLabels m tags).get ⟨j, hj2⟩)) ∧
      ∀ i2, i2 < j → ∀ h2 : i2 < (assignedLabels m tags).length,
        ((assignedLabels m tags).get ⟨i2, h2⟩,
          (vd.drop ((i + i2) * dim)).take dim)
          ∈ (upsertLoop dim vd tags i m e).2.1.vectors := by
  intro tags
  induction tags with
  | nil =>
    intro i m e j _ _ _ hj _ _ _
    exact absurd hj (by simp)
  | cons t ts ih =>
    intro i m e j hwf hnd hb hj hj2 hfj hok
    rcases hg : m.get_or_create_label t with ⟨l, m'⟩
    have hcons : assignedLabels m (t :: ts) = l :: assignedLabels m' ts := by
      rw [assignedLabels_cons, hg]
    simp only [List.length_cons] at hb hj
    rw [List.nodup_cons] at hnd
    have hb1 : m.next_label + 1 < u32Mod := by omega
    have hwf' : m'.WF := by
      have := wf_goc m t hwf hb1
      rwa [hg] at this
    have hnext : m'.next_label ≤ m.next_label + 1 := by
      have := (goc_next_le m t hb1).1
      rwa [hg] at this
    have hb' : m'.next_label + ts.length < u32Mod := by omega
    have hlen' : (assignedLabels m' ts).length = ts.length :=
      assignedLabels_length ts m'
    cases j with
    | zero =>
      have hfl : e.addFail l = true := by
        have := hfj
        rw [list_get_of_eq hcons ⟨0, hj2⟩] at this
        exact this
      have hadd : (e.removeLabel l).add l ((vd.drop (i * dim)).take dim) = none := by
        simp [Engine.add, Engine.removeLabel, hfl]
      constructor
      · simp only [upsertLoop, hg]
        rw [hadd, list_get_of_eq hcons ⟨0, hj2⟩]
        rfl
      · intro i2 h1 _
        exact absurd h1 (Nat.not_lt_zero _)
    | succ j' =>
      have hj' : j' < ts.length := by omega
      have hj2' : j' < (assignedLabels m' ts).length := by omega
      have h0b : 0 < (assignedLabels m (t :: ts)).length := by
        rw [hcons]; simp
      have hfl : e.addFail l = false := by
        have := hok 0 (Nat.succ_pos _) h0b
        rw [list_get_of_eq hcons ⟨0, h0b⟩] at this
        exact this
      have hadd : (e.removeLabel l).add l ((vd.drop (i * dim)).take dim)
          = some { e.removeLabel l with
              vectors := (l, (vd.drop (i * dim)).take dim)
                :: (e.removeLabel l).vectors } := by
        simp [Engine.add, Engine.removeLabel, hfl]
      have hfj' : ({ e.removeLabel l with
          vectors := (l, (vd.drop (i * dim)).take dim)
            :: (e.removeLabel l).vectors } : Engine).addFail
            ((assignedLabels m' ts).get ⟨j', hj2'⟩) = true := by
        have := hfj
        rw [list_get_of_eq hcons ⟨j' + 1, hj2⟩] at this
        exact this
      have hok' : ∀ i2, i2 < j' → ∀ h2 : i2 < (assignedLabels m' ts).length,
          ({ e.removeLabel l with
            vectors := (l, (vd.drop (i * dim)).take dim)
              :: (e.removeLabel l).vectors } : Engine).addFail
              ((assignedLabels m' ts).get ⟨i2, h2⟩) = false := by
        intro i2 h1 h2
        have h2b : i2 + 1 < (assignedLabels m (t :: ts)).length := by
          rw [hcons]
          simpa using Nat.succ_lt_succ h2
        have := hok (i2 + 1) (Nat.succ_lt_succ h1) h2b
        rw [list_get_of_eq hcons ⟨i2 + 1, h2b⟩] at this
        exact this
      have IH := ih (i + 1) m'
        { e.removeLabel l with
          vectors := (l, (vd.drop (i * dim)).take dim)
            :: (e.removeLabel l).vectors }
        j' hwf' hnd.2 hb' hj' hj2' hfj' hok'
      constructor
      · simp only [upsertLoop, hg]
        rw [hadd, list_get_of_eq hcons ⟨j' + 1, hj2⟩]
        exact IH.1
      · intro i2 h1 h2
        cases i2 with
        | zero =>
          rw [list_get_of_eq hcons ⟨0, h2⟩]
          simp only [upsertLoop, hg]
          rw [hadd]
          have hmem0 : ((l, (vd.drop (i * dim)).take dim) : Nat × List Int)
              ∈ ({ e.removeLabel l with
                vectors := (l, (vd.drop (i * dim)).take dim)
                  :: (e.removeLabel l).vectors } : Engine).vectors :=
            List.mem_cons_self _ _
          have hself : alookup m'.tag_to_label t = some l := by
            have := goc_lookup_self m t
            rwa [hg] at this
          have hnotin : l ∉ assignedLabels m' ts :=
            label_ne_assigned ts m' t l hwf' hb' hnd.1 hself
          have := upsertLoop_preserves dim vd ts (i + 1) m' _ _ hmem0 hnotin
          simpa using this
        | succ i2' =>
          have h1' : i2' < j' := Nat.lt_of_succ_lt_succ h1
          have h2' : i2' < (assignedLabels m' ts).length := by
            rw [hlen']
            omega
          rw [list_get_of_eq hcons ⟨i2' + 1, h2⟩]
          simp only [upsertLoop, hg]
          rw [hadd]
          have := IH.2 i2' h1' h2'
          rw [show i + (i2' + 1) = i + 1 + i2' from by omega]
          exact this

/-- C6: a batch upsert processes its pairs sequentially in presented
order; when the engine rejects the add of the pair at position `j` (having
accepted all earlier ones), the batch aborts with an error naming the
failing entry's tag and label, and every pair successfully inserted
earlier in the same batch is still present in the engine afterwards — no
rollback.  Stated over any well-formed store, distinct tags, a passing
size check, a successful (or unneeded) reservation, and a non-wrapping
counter. -/
theorem upsert_batch_partial_failure (s : VexusIndex) (tags : List String)
    (vectors : List Nat) (j : Nat)
    (hwf : s.mapping.WF) (hnd : tags.Nodup)
    (hb : s.mapping.next_label + tags.length < u32Mod)
    (hsz : (decodeF32s vectors).length = tags.length * s.dimensions)
    (hres : s.index.size + tags.length > s.index.capacity →
      s.index.reserveFail (3 * (s.index.size + tags.length) / 2) = false)
    (hj : j < tags.length)
    (hj2 : j < (assignedLabels s.mapping tags).length)
    (hfj : s.index.addFail ((assignedLabels s.mapping tags).get ⟨j, hj2⟩) = true)
    (hok : ∀ i2, i2 < j → ∀ h2 : i2 < (assignedLabels s.mapping tags).length,
      s.index.addFail ((assignedLabels s.mapping tags).get ⟨i2, h2⟩) = false) :
    (s.upsert tags vectors).2
      = some (Err.addFailed (tags.get ⟨j, hj⟩)
          ((assignedLabels s.mapping tags).get ⟨j, hj2⟩)) ∧
    ∀ i2, i2 < j → ∀ h2 : i2 < (assignedLabels s.mapping tags).length,
      ((assignedLabels s.mapping tags).get ⟨i2, h2⟩,
        ((decodeF32s vectors).drop (i2 * s.dimensions)).take s.dimensions)
        ∈ (s.upsert tags vectors).1.index.vectors := by
  by_cases hgrow : s.index.size + tags.length > s.index.capacity
  · have he : (if s.index.size + tags.length > s.index.capacity
        then s.index.reserve (3 * (s.index.size + tags.length) / 2)
        else some s.index)
          = some { s.index with
              capacity := max s.index.capacity
                (3 * (s.index.size + tags.length) / 2) } := by
      rw [if_pos hgrow]
      simp [Engine.reserve, hres hgrow]
    rw [upsert_eq_loop s tags vectors _ hsz he]
    have hmain := upsertLoop_fail s.dimensions (decodeF32s vectors) tags 0
      s.mapping
      { s.index with
        capacity := max s.index.capacity (3 * (s.index.size + tags.length) / 2) }
      j hwf hnd hb hj hj2 hfj hok
    refine ⟨hmain.1, ?_⟩
    intro i2 h1 h2
    have h := hmain.2 i2 h1 h2
    rw [Nat.zero_add] at h
    exact h
  · have he : (if s.index.size + tags.length > s.index.capacity
        then s.index.reserve (3 * (s.index.size + tags.length) / 2)
        else some s.index) = some s.index := by
      rw [if_neg hgrow]
    rw [upsert_eq_loop s tags vectors s.index hsz he]
    have hmain := upsertLoop_fail s.dimensions (decodeF32s vectors) tags 0
      s.mapping s.index j hwf hnd hb hj hj2 hfj hok
    refine ⟨hmain.1, ?_⟩
    intro i2 h1 h2
    have h := hmain.2 i2 h1 h2
    rw [Nat.zero_add] at h
    exact h

theorem upsert_batch_partial_failure_witness :
    (c6store.upsert ["a", "b"] [1, 0, 0, 0, 2, 0, 0, 0]).2
      = some (Err.addFailed "b" 1) ∧
    ((0 : Nat), [(1 : Int)])
      ∈ (c6store.upsert ["a", "b"] [1, 0, 0, 0, 2, 0, 0, 0]).1.index.vectors := by
  have happ := upsert_batch_partial_failure c6store ["a", "b"]
    [1, 0, 0, 0, 2, 0, 0, 0] 1 wf_new (by decide) (by decide) (by decide)
    (by decide) (by decide) (by decide) (by decide)
    (by intro i2 h1 h2
        have h0 : i2 = 0 := by omega
        subst h0
        rfl)
  exact ⟨happ.1, happ.2 0 (by decide) (by decide)⟩

/-- C9 (spec-modelled): during recovery every row whose raw byte length
differs from `dimension * sizeof(f32)` is skipped and counted, never
aborting the run; the count reported on completion equals exactly the
number of correctly sized rows (each of which was inserted), the skip
count equals the number of malformed rows, and the store's vector count
grows by exactly the inserted count. -/
theorem recovery_skip_and_count (dim : Nat) (rows : List RecRow) :
    ∀ e : RecEngine,
      (recoverRows dim rows e).2.1
        = (rows.filter (fun r => decide (r.raw.length = dim * 4))).length ∧
      (recoverRows dim rows e).2.2
        = (rows.filter (fun r => decide (r.raw.length ≠ dim * 4))).length ∧
      (recoverRows dim rows e).1.vectors.length
        = e.vectors.length
          + (rows.filter (fun r => decide (r.raw.length = dim * 4))).length := by
  induction rows with
  | nil =>
    intro e
    exact ⟨rfl, rfl, by simp [recoverRows]⟩
  | cons r rs ih =>
    intro e
    by_cases hr : r.raw.length = dim * 4
    · have hcond : ¬(r.raw.length ≠ dim * 4) := by simpa using hr
      rcases h : recoverRows dim rs (recInsert e r.id r.raw) with ⟨e', ins, skip⟩
      have ihh := ih (recInsert e r.id r.raw)
      rw [h] at ihh
      have hlen : (recInsert e r.id r.raw).vectors.length
          = e.vectors.length + 1 := by
        simp [recInsert]
      have ih1 : ins
          = (rs.filter (fun r => decide (r.raw.length = dim * 4))).length := ihh.1
      have ih2 : skip
          = (rs.filter (fun r => decide (r.raw.length ≠ dim * 4))).length := ihh.2.1
      have ih3 : e'.vectors.length
          = (recInsert e r.id r.raw).vectors.length
            + (rs.filter (fun r => decide (r.raw.length = dim * 4))).length := ihh.2.2
      simp only [recoverRows, if_neg hcond, h]
      refine ⟨?_, ?_, ?_⟩
      · show ins + 1 = _
        rw [ih1]
        simp [List.filter_cons, hr]
      · show skip = _
        rw [ih2]
        simp [List.filter_cons, hr]
      · show e'.vectors.length = _
        rw [ih3, hlen]
        simp [List.filter_cons, hr]
        omega
    · rcases h : recoverRows dim rs e with ⟨e', ins, skip⟩
      have ihh := ih e
      rw [h] at ihh
      have ih1 : ins
          = (rs.filter (fun r => decide (r.raw.length = dim * 4))).length := ihh.1
      have ih2 : skip
          = (rs.filter (fun r => decide (r.raw.length ≠ dim * 4))).length := ihh.2.1
      have ih3 : e'.vectors.length
          = e.vectors.length
            + (rs.filter (fun r => decide (r.raw.length = dim * 4))).length := ihh.2.2
      simp only [recoverRows, if_pos hr, h]
      refine ⟨?_, ?_, ?_⟩
      · show ins = _
        rw [ih1]
        simp [List.filter_cons, hr]
      · show skip + 1 = _
        rw [ih2]
        simp [List.filter_cons, hr]
      · show e'.vectors.length = _
        rw [ih3]
        simp [List.filter_cons, hr]
